import Mathlib

/-!
# Verification of the tape-check admission-controlled verification engine

Shallow embedding of `src/main.rs`: a tool that verifies files against md5
reference digests while bounding the total size of files being read
concurrently.  The embedding covers:

* `File::open` — the open-with-retry loop (transient errors retried
  unboundedly, other errors wrapped and returned immediately);
* `File::poll_read` — the read adaptor that turns raw OS error 16 into
  `Poll::Pending`;
* `check_file` — open, stream into the md5 hasher, compare the lowercase hex
  rendering of the digest with the reference string (the hash computation
  itself is an external collaborator and is abstracted as the digest bytes);
* `Reader` — the admission controller: `new`, `add`, `next` and the release
  hook, together with a fail-fast driver (`runOps`) modelling how `main`
  drives the Reader.

Asynchrony is modelled by oracles: each `Reader::next` consumes a completion
event carrying which in-flight task the `JoinSet` finished, that task's
result, and the filesystem metadata visible at that moment (the code
re-reads `path.metadata()` at drain time).  `u64` arithmetic is `Nat`; the
budget subtraction (`cur_size -= ...`), the admission sum
(`cur_size + filesize`) and the budget addition (`cur_size += filesize`)
are modelled with release-mode wrapping semantics (`wsub`, `wadd`).
-/

/-- The subset of `std::io::ErrorKind` the program distinguishes. -/
inductive ErrorKind where
  | timedOut
  | interrupted
  | notFound
  | permissionDenied
  | otherKind
deriving DecidableEq, Repr

/-- Model of `std::io::Error`: its kind, display message and optional raw OS errno. -/
structure IOError where
  kind : ErrorKind
  emsg : String
  raw_os_error : Option Nat := none
deriving DecidableEq, Repr

/-- Model of `std::task::Poll`. -/
inductive Poll (α : Type) where
  | ready (a : α)
  | pending
deriving DecidableEq, Repr

/-- Model of `File::poll_read` (src/main.rs:62-73): delegate to the inner file's
`poll_read`; a read error whose `raw_os_error()` is `Some(16)` becomes
`Poll::Pending` ("no more bytes yet"); every other error is returned. -/
def File.poll_read (inner : Poll (Except IOError Unit)) : Poll (Except IOError Unit) :=
  match inner with
  | .ready (.ok _) => .ready (.ok ())
  | .ready (.error e) => if e.raw_os_error = some 16 then .pending else .ready (.error e)
  | .pending => .pending

/-- Outcome of one `tokio::fs::File::open` attempt. -/
inductive OpenOutcome where
  | success
  | failure (e : IOError)
deriving DecidableEq, Repr

/-- The error kinds `File::open` treats as transient (`TimedOut | Interrupted`). -/
def isTransientKind (k : ErrorKind) : Bool :=
  match k with
  | .timedOut => true
  | .interrupted => true
  | _ => false

/-- An open attempt that failed with a transient kind. -/
def isTransientOutcome (o : OpenOutcome) : Bool :=
  match o with
  | .success => false
  | .failure e => isTransientKind e.kind

/-- The error `File::open` returns for a non-transient failure: the original
kind, with a message naming the path (src/main.rs:52-53). -/
def openWrapError (path : String) (e : IOError) : IOError :=
  { kind := e.kind, emsg := "Failed to open " ++ path, raw_os_error := none }

/-- Model of `File::open` (src/main.rs:41-58) over an oracle listing the outcomes of
successive `tokio::fs::File::open` calls.  The loop starts from a seeded
`TimedOut` error so the first attempt always runs; transient failures loop,
a success returns the file, any other failure returns the wrapped error
at once.  `none` means the oracle was exhausted while the loop was still
retrying (the unbounded-retry case). -/
def File.openFile (path : String) : List OpenOutcome → Option (Except IOError Unit)
  | [] => none
  | .success :: _ => some (.ok ())
  | .failure e :: rest =>
      if isTransientKind e.kind then File.openFile path rest
      else some (.error (openWrapError path e))

/-- Lowercase hexadecimal digit, as produced by Rust's `{:x}` formatting. -/
def hexDigit (n : Nat) : Char :=
  if n < 10 then Char.ofNat (48 + n) else Char.ofNat (87 + n)

/-- One byte as two lowercase hex digits. -/
def byteToHex (b : Nat) : String :=
  String.mk [hexDigit (b / 16 % 16), hexDigit (b % 16)]

/-- Rust `format!("{:x}", digest)` on an `md5::Digest`: every byte of the
digest printed as two lowercase hex digits. -/
def digestToHex (d : List Nat) : String :=
  String.join (d.map byteToHex)

/-- Model of `check_file` (src/main.rs:91-101): open the file (propagating the open
error), stream it into the hasher (propagating the copy error), then compare
the lowercase hex rendering of the computed digest with the reference string
using plain string equality.  The md5 computation is an external
collaborator; `digest` stands for the digest bytes it produced. -/
def check_file (openRes : Except IOError Unit) (copyRes : Except IOError Unit)
    (digest : List Nat) (reference : String) : Except IOError Bool :=
  match openRes with
  | .error e => .error e
  | .ok _ =>
    match copyRes with
    | .error e => .error e
    | .ok _ => .ok (digestToHex digest == reference)

/-- The function `main` (src/main.rs:186) constructs the Reader with byte budget
`args.max_size ^ 30`, Rust's bitwise XOR. -/
def mainBudget (max_size : Nat) : Nat := Nat.xor max_size 30

-- Helper: a run of transient outcomes in front of the attempt oracle is
-- consumed without changing the final result.
theorem openFile_append_of_transient (path : String) (pre l : List OpenOutcome)
    (h : pre.all isTransientOutcome = true) :
    File.openFile path (pre ++ l) = File.openFile path l := by
  induction pre with
  | nil => rfl
  | cons o rest ih =>
      simp only [List.all_cons, Bool.and_eq_true] at h
      cases o with
      | success => simp [isTransientOutcome] at h
      | failure e =>
          simp only [isTransientOutcome] at h
          simp [File.openFile, h.1, ih h.2]

/-- C8: File::open retries opening the path unboundedly and immediately
whenever the failure kind is TimedOut or Interrupted, and on any other
failure kind returns immediately, without retrying, an error that keeps the
original error kind and carries a message identifying the path. -/
theorem open_retries_transient_only :
    (∀ path (attempts : List OpenOutcome), attempts.all isTransientOutcome = true →
        File.openFile path attempts = none)
    ∧ (∀ path (pre : List OpenOutcome) (e : IOError) (rest : List OpenOutcome),
        pre.all isTransientOutcome = true → isTransientKind e.kind = false →
        File.openFile path (pre ++ .failure e :: rest)
          = some (.error { kind := e.kind, emsg := "Failed to open " ++ path,
                           raw_os_error := none }))
    ∧ (∀ path (pre rest : List OpenOutcome), pre.all isTransientOutcome = true →
        File.openFile path (pre ++ .success :: rest) = some (.ok ())) := by
  refine ⟨?_, ?_, ?_⟩
  · intro path attempts h
    have := openFile_append_of_transient path attempts [] h
    simpa using this
  · intro path pre e rest hpre he
    rw [openFile_append_of_transient path pre _ hpre]
    simp [File.openFile, he, openWrapError]
  · intro path pre rest hpre
    rw [openFile_append_of_transient path pre _ hpre]
    rfl

theorem open_retries_transient_only_witness :
    ([OpenOutcome.failure ⟨.timedOut, "t", none⟩].all isTransientOutcome = true
      ∧ File.openFile "p" [OpenOutcome.failure ⟨.timedOut, "t", none⟩] = none)
    ∧ (isTransientKind ErrorKind.notFound = false
      ∧ File.openFile "p"
          [OpenOutcome.failure ⟨.interrupted, "i", none⟩,
           OpenOutcome.failure ⟨.notFound, "missing", none⟩,
           OpenOutcome.success]
        = some (.error { kind := .notFound, emsg := "Failed to open p",
                         raw_os_error := none }))
    ∧ File.openFile "p" [OpenOutcome.failure ⟨.timedOut, "t", none⟩, OpenOutcome.success]
        = some (.ok ()) :=
  ⟨⟨by decide, open_retries_transient_only.1 "p" _ (by decide)⟩,
   ⟨by decide,
    open_retries_transient_only.2.1 "p" [.failure ⟨.interrupted, "i", none⟩]
      ⟨.notFound, "missing", none⟩ [.success] (by decide) (by decide)⟩,
   open_retries_transient_only.2.2 "p" [.failure ⟨.timedOut, "t", none⟩] [] (by decide)⟩

/-- C9: while reading the opened file, a read failing with raw OS error 16
is treated as "no more bytes yet": poll_read yields Pending instead of the
error; a read error of any other kind is returned as a hard failure, and
successful reads and Pending pass through. -/
theorem poll_read_os_error_16_pending (e : IOError) :
    (File.poll_read (.ready (.error e)) = .pending ↔ e.raw_os_error = some 16)
    ∧ (e.raw_os_error ≠ some 16 →
        File.poll_read (.ready (.error e)) = .ready (.error e))
    ∧ File.poll_read (.ready (.ok ())) = .ready (.ok ())
    ∧ File.poll_read (Poll.pending) = Poll.pending := by
  refine ⟨?_, ?_, rfl, rfl⟩
  · by_cases h : e.raw_os_error = some 16 <;> simp [File.poll_read, h]
  · intro h
    simp [File.poll_read, h]

theorem poll_read_os_error_16_pending_witness :
    (File.poll_read (.ready (.error ⟨.otherKind, "boom", some 16⟩)) = .pending)
    ∧ (File.poll_read (.ready (.error ⟨.otherKind, "boom", some 5⟩))
        = .ready (.error ⟨.otherKind, "boom", some 5⟩)) :=
  ⟨(poll_read_os_error_16_pending ⟨.otherKind, "boom", some 16⟩).1.mpr rfl,
   (poll_read_os_error_16_pending ⟨.otherKind, "boom", some 5⟩).2.1 (by decide)⟩

/-- C7: when opening and reading succeed, check_file returns Ok(true) iff
the lowercase hex rendering of the computed digest is exactly equal, as a
case-sensitive string with no normalization, to the reference string, and
Ok(false) otherwise; concrete instances show the comparison is
case-sensitive ("ab" matches, "AB" does not). -/
theorem check_file_exact_string_match :
    (∀ (digest : List Nat) (reference : String),
      (check_file (.ok ()) (.ok ()) digest reference = .ok true
        ↔ digestToHex digest = reference)
      ∧ (check_file (.ok ()) (.ok ()) digest reference = .ok false
        ↔ digestToHex digest ≠ reference))
    ∧ digestToHex [171] = "ab"
    ∧ check_file (.ok ()) (.ok ()) [171] "ab" = .ok true
    ∧ check_file (.ok ()) (.ok ()) [171] "AB" = .ok false := by
  refine ⟨?_, by decide, by rfl, by rfl⟩
  intro digest reference
  constructor
  · simp [check_file]
  · simp [check_file]

/-- One in-flight verification: the `check_file` task spawned for `path` with
`reference`, together with the size `Reader::add` added to `cur_size` when it
admitted the file. -/
structure Entry where
  path : String
  reference : String
  size : Nat
deriving DecidableEq, Repr

/-- Model of the `io::Result<bool>` a finished `check_file` task produced. -/
inductive TaskResult where
  | ok (b : Bool)
  | err (e : IOError)
deriving DecidableEq, Repr

/-- Model of the `Box<dyn Error>` values produced by `Reader::add` / `Reader::next`:
either a propagated io::Error or a formatted message. -/
inductive DynError where
  | io (e : IOError)
  | emsg (s : String)
deriving DecidableEq, Repr

/-- The Reader (src/main.rs:102-108): the JoinSet of in-flight tasks
(modelled as the list of their entries; completion order is chosen by the
scheduler, see `Reader.next`), the whitespace-split release command, and the
byte budget counters. -/
structure Reader where
  inflight : List Entry := []
  release : List String := []
  cur_size : Nat := 0
  max_size : Nat := 0
deriving DecidableEq, Repr

/-- Rust's `str::split_whitespace`: split at whitespace, dropping empty
pieces. -/
def splitWhitespace (s : String) : List String :=
  (s.split (fun c => c.isWhitespace)).filter (fun t => t ≠ "")

/-- Model of `Reader::new` (src/main.rs:112-121). -/
def Reader.new (max_size : Nat) (release : Option String) : Reader :=
  { max_size := max_size,
    release := match release with
      | none => []
      | some r => splitWhitespace r }

/-- Model of `Reader::release` (src/main.rs:162-174): if the release vector is
nonempty (`split_first` succeeds), spawn `program params... path` and ignore
the exit status and any spawn failure (`.status().ok()`).  The model records
the argv of the invocation; `none` is the no-op case.  The return type has
no error component because the method discards every failure. -/
def Reader.releaseArgv (r : Reader) (path : String) : Option (List String) :=
  match r.release with
  | [] => none
  | program :: params => some (program :: (params ++ [path]))

/-- The u64 wrapping subtraction, the release-mode semantics of Rust's
`cur_size -= n` (debug builds panic on underflow; no proved run reaches the
wrapping case). -/
def wsub (a b : Nat) : Nat := (a + 2 ^ 64 - b % 2 ^ 64) % 2 ^ 64

/-- The u64 wrapping addition, the release-mode semantics of Rust's
`cur_size + filesize` and `cur_size += filesize` (debug builds panic on
overflow). -/
def wadd (a b : Nat) : Nat := (a + b) % 2 ^ 64

/-- The observable side effects of one `Reader::next` call: the
`println!("{} {}", path, OK/FAIL)` line and the release-hook invocation. -/
structure NextEffects where
  printed : Option (String × Bool) := none
  released : Option (List String) := none
deriving DecidableEq, Repr

/-- Model of the `Result<Option<(PathBuf,bool)>, Box<dyn Error>>` of `Reader::next`. -/
inductive NextResult where
  | more (path : String) (ok : Bool)
  | done
  | fail (e : DynError)
deriving DecidableEq, Repr

/-- Model of `Reader::next` (src/main.rs:144-161): drain one completed task.
`sel` picks which in-flight task the JoinSet finished (any index, taken mod
the set size — `join_next` returns completions in scheduler order, and
`None` exactly when the set is empty); `res` is that task's result; `fsNow`
is the filesystem metadata at drain time (`next` re-reads
`path.metadata()?.len()` before subtracting).  On `Ok(ok)`: subtract the
re-read size, print the OK/FAIL line, invoke the release hook, return the
pair.  On `Err(e)`: invoke the release hook and return the formatted error
without touching `cur_size`. -/
def Reader.next (r : Reader) (sel : Nat) (res : TaskResult)
    (fsNow : String → Except IOError Nat) :
    Reader × NextEffects × NextResult :=
  match r.inflight.get? (sel % r.inflight.length) with
  | none => (r, {}, .done)
  | some entry =>
    let remaining := r.inflight.eraseIdx (sel % r.inflight.length)
    match res with
    | .ok b =>
      match fsNow entry.path with
      | .error e => ({ r with inflight := remaining }, {}, .fail (.io e))
      | .ok sz =>
          ({ r with inflight := remaining, cur_size := wsub r.cur_size sz },
           { printed := some (entry.path, b), released := r.releaseArgv entry.path },
           .more entry.path b)
    | .err e =>
        ({ r with inflight := remaining },
         { released := r.releaseArgv entry.path },
         .fail (.emsg ("failed reading " ++ entry.path ++ ": " ++ e.emsg)))

/-- One completion event consumed by a drain step: the JoinSet's selection,
the finished task's result, and the filesystem at that moment. -/
structure DrainEvent where
  sel : Nat
  res : TaskResult
  fs : String → Except IOError Nat

/-- How the admission loop of `Reader::add` ended. -/
inductive LoopExit where
  | proceed
  | failed (e : DynError)
  | exhausted
deriving DecidableEq, Repr

/-- The admission loop of `Reader::add` (src/main.rs:133-137):
`while cur_size + filesize > max_size { self.next().await? }`, whose `+`
is the wrapping u64 addition in release mode (`wadd`).  Each
iteration consumes one completion event; errors from `next` propagate
(`failed`); `exhausted` means the supplied events ran out while still over
budget (the real loop would still be blocked inside `next`).  Also returns
the Reader state after every executed `next`, so state invariants can be
stated at every observable instant. -/
def Reader.waitLoop (r : Reader) (filesize : Nat) :
    List DrainEvent → Reader × List Reader × LoopExit
  | [] =>
      if wadd r.cur_size filesize > r.max_size then (r, [], .exhausted)
      else (r, [], .proceed)
  | ev :: rest =>
      if wadd r.cur_size filesize > r.max_size then
        let n := Reader.next r ev.sel ev.res ev.fs
        match n.2.2 with
        | .fail e => (n.1, [n.1], .failed e)
        | _ =>
            let out := Reader.waitLoop n.1 filesize rest
            (out.1, n.1 :: out.2.1, out.2.2)
      else (r, [], .proceed)

/-- How `Reader::add` ended. -/
inductive AddResult where
  | ok
  | sizeExceeded (s : String)
  | statError (e : IOError)
  | drainError (e : DynError)
  | stuck
deriving DecidableEq, Repr

/-- Model of `Reader::add` (src/main.rs:122-143): stat the path (`fs0` is the
filesystem at submit time, errors propagate); reject a file larger than
`max_size` with the formatted message, touching nothing; otherwise run the
admission loop, then spawn the `check_file` task and add the submit-time
size to `cur_size`.  Also returns the Reader states after each internal
step. -/
def Reader.add (r : Reader) (path reference : String)
    (fs0 : String → Except IOError Nat) (events : List DrainEvent) :
    Reader × List Reader × AddResult :=
  match fs0 path with
  | .error e => (r, [], .statError e)
  | .ok filesize =>
    if filesize > r.max_size then
      (r, [], .sizeExceeded ("\"" ++ path ++ " is bigger than the maximum allowed buffer size "
          ++ toString r.max_size))
    else
      let w := Reader.waitLoop r filesize events
      match w.2.2 with
      | .proceed =>
          let r2 := { w.1 with
            inflight := w.1.inflight ++ [{ path := path, reference := reference, size := filesize }]
            cur_size := wadd w.1.cur_size filesize }
          (r2, w.2.1 ++ [r2], .ok)
      | .failed e => (w.1, w.2.1, .drainError e)
      | .exhausted => (w.1, w.2.1, .stuck)

/-- One step of the sequential driver in `main`: a `Reader::add` call (with
its submit-time filesystem and the completion events its admission loop may
consume) or one iteration of the final `join` drain loop. -/
inductive Op where
  | add (path reference : String) (fs0 : String → Except IOError Nat) (events : List DrainEvent)
  | drain (ev : DrainEvent)

/-- The fail-fast driver: apply the operations in order, stopping at the
first failed add or failed drain (`main` propagates every error with `?`).
Returns the final state, the intermediate states after every internal step,
and whether every operation completed without error. -/
def Reader.runOps (r : Reader) : List Op → Reader × List Reader × Bool
  | [] => (r, [], true)
  | .add path reference fs0 events :: rest =>
      let a := Reader.add r path reference fs0 events
      match a.2.2 with
      | .ok =>
          let out := Reader.runOps a.1 rest
          (out.1, a.2.1 ++ out.2.1, out.2.2)
      | _ => (a.1, a.2.1, false)
  | .drain ev :: rest =>
      let n := Reader.next r ev.sel ev.res ev.fs
      match n.2.2 with
      | .fail _ => (n.1, [n.1], false)
      | _ =>
          let out := Reader.runOps n.1 rest
          (out.1, n.1 :: out.2.1, out.2.2)

/-- The sum of the admitted sizes of a list of in-flight entries. -/
def sumSizes (l : List Entry) : Nat := (l.map Entry.size).sum

-- Elementary facts about sumSizes and eraseIdx used by the invariant proofs.

theorem sumSizes_eraseIdx (l : List Entry) (k : Nat) (entry : Entry)
    (h : l.get? k = some entry) :
    sumSizes (l.eraseIdx k) + entry.size = sumSizes l := by
  induction l generalizing k with
  | nil => simp at h
  | cons a t ih =>
      cases k with
      | zero =>
          simp only [List.get?] at h
          cases h
          simp [sumSizes, List.eraseIdx, Nat.add_comm]
      | succ k =>
          simp only [List.get?] at h
          have := ih k h
          simp only [sumSizes, List.eraseIdx, List.map_cons, List.sum_cons] at this ⊢
          omega

theorem entrySize_le_sumSizes (l : List Entry) (k : Nat) (entry : Entry)
    (h : l.get? k = some entry) : entry.size ≤ sumSizes l := by
  have := sumSizes_eraseIdx l k entry h
  omega

theorem mem_of_mem_eraseIdx (l : List Entry) (k : Nat) (e : Entry)
    (h : e ∈ l.eraseIdx k) : e ∈ l :=
  (List.eraseIdx_sublist l k).subset h

theorem length_eraseIdx_of_get? (l : List Entry) (k : Nat) (entry : Entry)
    (h : l.get? k = some entry) : (l.eraseIdx k).length = l.length - 1 := by
  obtain ⟨hk, -⟩ := List.get?_eq_some.mp h
  exact List.length_eraseIdx_of_lt hk

-- In the no-underflow regime the wrapping u64 subtraction is exact.
theorem wsub_eq_sub (a b : Nat) (hb : b ≤ a) (ha : a < 2 ^ 64) : wsub a b = a - b := by
  unfold wsub
  have hb2 : b < 2 ^ 64 := lt_of_le_of_lt hb ha
  rw [Nat.mod_eq_of_lt hb2]
  omega

/-- A filesystem whose metadata calls always succeed with the sizes given by
`fs`, never changing over the run: the regime in which the spec's notion of
"declared size" is well defined. -/
def stableFs (fs : String → Nat) : String → Except IOError Nat := fun p => .ok (fs p)

/-- All drain events observe the stable filesystem `fs`. -/
def StableEvents (fs : String → Nat) : List DrainEvent → Prop
  | [] => True
  | ev :: rest => ev.fs = stableFs fs ∧ StableEvents fs rest

/-- All operations of a run observe the stable filesystem `fs`. -/
def StableOps (fs : String → Nat) : List Op → Prop
  | [] => True
  | .add _ _ fs0 events :: rest => fs0 = stableFs fs ∧ StableEvents fs events ∧ StableOps fs rest
  | .drain ev :: rest => ev.fs = stableFs fs ∧ StableOps fs rest

/-- Every drained task completed with an `Ok` result (no task hit an I/O
error). -/
def AllOkEvents : List DrainEvent → Prop
  | [] => True
  | ev :: rest => (∃ b, ev.res = .ok b) ∧ AllOkEvents rest

/-- Every drained task of the run completed with an `Ok` result. -/
def AllOkOps : List Op → Prop
  | [] => True
  | .add _ _ _ events :: rest => AllOkEvents events ∧ AllOkOps rest
  | .drain ev :: rest => (∃ b, ev.res = .ok b) ∧ AllOkOps rest

/-- Every submitted file's size is within the budget `M`. -/
def SizesFit (M : Nat) (fs : String → Nat) : List Op → Prop
  | [] => True
  | .add path _ _ _ :: rest => fs path ≤ M ∧ SizesFit M fs rest
  | .drain _ :: rest => SizesFit M fs rest

/-- The safety invariant every run state satisfies: the budget is the
construction-time constant, `cur_size` dominates the in-flight sizes (error
drains may leak, so only `≤`), `cur_size` stays within budget, and every
in-flight entry was admitted with its stable-filesystem size. -/
def InvLe (M : Nat) (fs : String → Nat) (r : Reader) : Prop :=
  r.max_size = M ∧ sumSizes r.inflight ≤ r.cur_size ∧ r.cur_size ≤ M
  ∧ ∀ e ∈ r.inflight, e.size = fs e.path

/-- The exact-accounting invariant: `cur_size` equals the sum of the
admitted sizes of the in-flight entries.  Maintained only on drains of
successfully completed tasks (`AllOk`). -/
def InvEq (M : Nat) (fs : String → Nat) (r : Reader) : Prop :=
  r.max_size = M ∧ r.cur_size = sumSizes r.inflight ∧ r.cur_size ≤ M
  ∧ ∀ e ∈ r.inflight, e.size = fs e.path

theorem InvEq.toInvLe {M : Nat} {fs : String → Nat} {r : Reader}
    (h : InvEq M fs r) : InvLe M fs r :=
  ⟨h.1, le_of_eq h.2.1.symm, h.2.2.1, h.2.2.2⟩


-- Case equations for Reader.next, used both by the invariant proofs and by
-- the per-branch claims.

theorem next_empty (r : Reader) (sel : Nat) (res : TaskResult)
    (f : String → Except IOError Nat)
    (hget : r.inflight[sel % r.inflight.length]? = none) :
    Reader.next r sel res f = (r, {}, .done) := by
  simp [Reader.next, hget]

theorem next_ok_eq (r : Reader) (sel : Nat) (b : Bool)
    (f : String → Except IOError Nat) (entry : Entry) (sz : Nat)
    (hget : r.inflight[sel % r.inflight.length]? = some entry)
    (hf : f entry.path = .ok sz) :
    Reader.next r sel (.ok b) f
      = ({ r with
            inflight := r.inflight.eraseIdx (sel % r.inflight.length)
            cur_size := wsub r.cur_size sz },
         { printed := some (entry.path, b), released := r.releaseArgv entry.path },
         .more entry.path b) := by
  simp [Reader.next, hget, hf]

theorem next_ok_statfail_eq (r : Reader) (sel : Nat) (b : Bool)
    (f : String → Except IOError Nat) (entry : Entry) (e : IOError)
    (hget : r.inflight[sel % r.inflight.length]? = some entry)
    (hf : f entry.path = .error e) :
    Reader.next r sel (.ok b) f
      = ({ r with inflight := r.inflight.eraseIdx (sel % r.inflight.length) },
         {}, .fail (.io e)) := by
  simp [Reader.next, hget, hf]

theorem next_err_eq (r : Reader) (sel : Nat) (e : IOError)
    (f : String → Except IOError Nat) (entry : Entry)
    (hget : r.inflight[sel % r.inflight.length]? = some entry) :
    Reader.next r sel (.err e) f
      = ({ r with inflight := r.inflight.eraseIdx (sel % r.inflight.length) },
         { released := r.releaseArgv entry.path },
         .fail (.emsg ("failed reading " ++ entry.path ++ ": " ++ e.emsg))) := by
  simp [Reader.next, hget]

-- When the in-flight set is nonempty, join_next always yields a completion:
-- the selection index taken mod the length is in range.
theorem get_mod_some (l : List Entry) (sel : Nat) (h : l ≠ []) :
    ∃ entry, l[sel % l.length]? = some entry := by
  have hlen : 0 < l.length := List.length_pos.mpr h
  have hlt : sel % l.length < l.length := Nat.mod_lt _ hlen
  exact ⟨l[sel % l.length], List.getElem?_eq_getElem hlt⟩

-- Reader.next on the stable filesystem preserves the safety invariant for
-- every task result: the drained entry's size never exceeds cur_size, so the
-- wrapping subtraction is exact and only decreases cur_size.
theorem next_state_invle (M : Nat) (fs : String → Nat) (hM : M < 2 ^ 64)
    (r : Reader) (h : InvLe M fs r) (sel : Nat) (res : TaskResult) :
    InvLe M fs (Reader.next r sel res (stableFs fs)).1 := by
  obtain ⟨hmax, hsum, hcur, hcons⟩ := h
  cases hget : r.inflight[sel % r.inflight.length]? with
  | none =>
      rw [next_empty r sel res _ hget]
      exact ⟨hmax, hsum, hcur, hcons⟩
  | some entry =>
      have hget' : r.inflight.get? (sel % r.inflight.length) = some entry := by
        rw [List.get?_eq_getElem?]; exact hget
      have hmem : entry ∈ r.inflight := List.get?_mem hget'
      have hesz : entry.size = fs entry.path := hcons entry hmem
      have hle : entry.size ≤ sumSizes r.inflight :=
        entrySize_le_sumSizes _ _ _ hget'
      have herase := sumSizes_eraseIdx r.inflight (sel % r.inflight.length) entry hget'
      cases res with
      | ok b =>
          rw [next_ok_eq r sel b _ entry (fs entry.path) hget rfl]
          have hw : wsub r.cur_size (fs entry.path) = r.cur_size - fs entry.path :=
            wsub_eq_sub _ _ (hesz ▸ le_trans hle hsum) (lt_of_le_of_lt hcur hM)
          refine ⟨hmax, ?_, ?_, ?_⟩
          · simp only [hw]
            omega
          · simp only [hw]
            omega
          · intro e2 he2
            exact hcons e2 (mem_of_mem_eraseIdx _ _ _ he2)
      | err e =>
          rw [next_err_eq r sel e _ entry hget]
          refine ⟨hmax, ?_, hcur, ?_⟩
          · dsimp only
            omega
          · intro e2 he2
            exact hcons e2 (mem_of_mem_eraseIdx _ _ _ he2)

-- Draining an Ok-completed task on the stable filesystem preserves exact
-- accounting.
theorem next_state_inveq (M : Nat) (fs : String → Nat) (hM : M < 2 ^ 64)
    (r : Reader) (h : InvEq M fs r) (sel : Nat) (b : Bool) :
    InvEq M fs (Reader.next r sel (.ok b) (stableFs fs)).1 := by
  obtain ⟨hmax, hsum, hcur, hcons⟩ := h
  cases hget : r.inflight[sel % r.inflight.length]? with
  | none =>
      rw [next_empty r sel (.ok b) _ hget]
      exact ⟨hmax, hsum, hcur, hcons⟩
  | some entry =>
      have hget' : r.inflight.get? (sel % r.inflight.length) = some entry := by
        rw [List.get?_eq_getElem?]; exact hget
      have hmem : entry ∈ r.inflight := List.get?_mem hget'
      have hesz : entry.size = fs entry.path := hcons entry hmem
      have hle : entry.size ≤ sumSizes r.inflight :=
        entrySize_le_sumSizes _ _ _ hget'
      have herase := sumSizes_eraseIdx r.inflight (sel % r.inflight.length) entry hget'
      rw [next_ok_eq r sel b _ entry (fs entry.path) hget rfl]
      have hw : wsub r.cur_size (fs entry.path) = r.cur_size - fs entry.path :=
        wsub_eq_sub _ _ (hesz ▸ (hsum ▸ hle)) (lt_of_le_of_lt hcur hM)
      refine ⟨hmax, ?_, ?_, ?_⟩
      · simp only [hw]
        omega
      · simp only [hw]
        omega
      · intro e2 he2
        exact hcons e2 (mem_of_mem_eraseIdx _ _ _ he2)

-- Case equations for the admission loop.

theorem waitLoop_nil (r : Reader) (filesize : Nat) :
    Reader.waitLoop r filesize []
      = if wadd r.cur_size filesize > r.max_size then (r, [], .exhausted)
        else (r, [], .proceed) := rfl

theorem waitLoop_not_over (r : Reader) (filesize : Nat) (ev : DrainEvent)
    (rest : List DrainEvent) (hc : ¬ wadd r.cur_size filesize > r.max_size) :
    Reader.waitLoop r filesize (ev :: rest) = (r, [], .proceed) := by
  simp [Reader.waitLoop, hc]

theorem waitLoop_fail (r : Reader) (filesize : Nat) (ev : DrainEvent)
    (rest : List DrainEvent) (e : DynError)
    (hc : wadd r.cur_size filesize > r.max_size)
    (hout : (Reader.next r ev.sel ev.res ev.fs).2.2 = .fail e) :
    Reader.waitLoop r filesize (ev :: rest)
      = ((Reader.next r ev.sel ev.res ev.fs).1,
         [(Reader.next r ev.sel ev.res ev.fs).1], .failed e) := by
  simp [Reader.waitLoop, hc, hout]

theorem waitLoop_step (r : Reader) (filesize : Nat) (ev : DrainEvent)
    (rest : List DrainEvent)
    (hc : wadd r.cur_size filesize > r.max_size)
    (hout : ∀ e, (Reader.next r ev.sel ev.res ev.fs).2.2 ≠ .fail e) :
    Reader.waitLoop r filesize (ev :: rest)
      = ((Reader.waitLoop (Reader.next r ev.sel ev.res ev.fs).1 filesize rest).1,
         (Reader.next r ev.sel ev.res ev.fs).1
           :: (Reader.waitLoop (Reader.next r ev.sel ev.res ev.fs).1 filesize rest).2.1,
         (Reader.waitLoop (Reader.next r ev.sel ev.res ev.fs).1 filesize rest).2.2) := by
  cases hout2 : (Reader.next r ev.sel ev.res ev.fs).2.2 with
  | fail e => exact absurd hout2 (hout e)
  | more p b => simp [Reader.waitLoop, hc, hout2]
  | done => simp [Reader.waitLoop, hc, hout2]

-- Every state reached inside the admission loop satisfies the safety
-- invariant, and so does the state the loop ends in.
theorem waitLoop_invle (M : Nat) (fs : String → Nat) (hM : M < 2 ^ 64)
    (filesize : Nat) (events : List DrainEvent) (r : Reader)
    (h : InvLe M fs r) (hst : StableEvents fs events) :
    InvLe M fs (Reader.waitLoop r filesize events).1
    ∧ ∀ s ∈ (Reader.waitLoop r filesize events).2.1, InvLe M fs s := by
  induction events generalizing r with
  | nil =>
      rw [waitLoop_nil]
      by_cases hc : wadd r.cur_size filesize > r.max_size
      · simp only [if_pos hc]
        exact ⟨h, by simp⟩
      · simp only [if_neg hc]
        exact ⟨h, by simp⟩
  | cons ev rest ih =>
      obtain ⟨hfs, hrest⟩ := hst
      by_cases hc : wadd r.cur_size filesize > r.max_size
      · have hn : InvLe M fs (Reader.next r ev.sel ev.res ev.fs).1 := by
          rw [hfs]
          exact next_state_invle M fs hM r h ev.sel ev.res
        by_cases hfail : ∃ e, (Reader.next r ev.sel ev.res ev.fs).2.2 = .fail e
        · obtain ⟨e, he⟩ := hfail
          rw [waitLoop_fail r filesize ev rest e hc he]
          exact ⟨hn, by simpa using hn⟩
        · push_neg at hfail
          rw [waitLoop_step r filesize ev rest hc hfail]
          obtain ⟨h1, h2⟩ := ih (Reader.next r ev.sel ev.res ev.fs).1 hn hrest
          refine ⟨h1, ?_⟩
          intro s hs
          rcases List.mem_cons.mp hs with hs | hs
          · exact hs ▸ hn
          · exact h2 s hs
      · rw [waitLoop_not_over r filesize ev rest hc]
        exact ⟨h, by simp⟩

-- Exact accounting is preserved through the admission loop when every
-- drained task completed successfully.
theorem waitLoop_inveq (M : Nat) (fs : String → Nat) (hM : M < 2 ^ 64)
    (filesize : Nat) (events : List DrainEvent) (r : Reader)
    (h : InvEq M fs r) (hst : StableEvents fs events) (hok : AllOkEvents events) :
    InvEq M fs (Reader.waitLoop r filesize events).1
    ∧ ∀ s ∈ (Reader.waitLoop r filesize events).2.1, InvEq M fs s := by
  induction events generalizing r with
  | nil =>
      rw [waitLoop_nil]
      by_cases hc : wadd r.cur_size filesize > r.max_size
      · simp only [if_pos hc]
        exact ⟨h, by simp⟩
      · simp only [if_neg hc]
        exact ⟨h, by simp⟩
  | cons ev rest ih =>
      obtain ⟨hfs, hrest⟩ := hst
      obtain ⟨⟨b, hb⟩, hokrest⟩ := hok
      by_cases hc : wadd r.cur_size filesize > r.max_size
      · have hn : InvEq M fs (Reader.next r ev.sel ev.res ev.fs).1 := by
          rw [hfs, hb]
          exact next_state_inveq M fs hM r h ev.sel b
        by_cases hfail : ∃ e, (Reader.next r ev.sel ev.res ev.fs).2.2 = .fail e
        · obtain ⟨e, he⟩ := hfail
          rw [waitLoop_fail r filesize ev rest e hc he]
          exact ⟨hn, by simpa using hn⟩
        · push_neg at hfail
          rw [waitLoop_step r filesize ev rest hc hfail]
          obtain ⟨h1, h2⟩ := ih (Reader.next r ev.sel ev.res ev.fs).1 hn hrest hokrest
          refine ⟨h1, ?_⟩
          intro s hs
          rcases List.mem_cons.mp hs with hs | hs
          · exact hs ▸ hn
          · exact h2 s hs
      · rw [waitLoop_not_over r filesize ev rest hc]
        exact ⟨h, by simp⟩

-- When the loop exits normally, the state it leaves satisfies the admission
-- condition: the wrapped sum cur_size + filesize no longer exceeds the budget.
theorem waitLoop_proceed_bound (filesize : Nat) (events : List DrainEvent) (r : Reader)
    (hw : (Reader.waitLoop r filesize events).2.2 = .proceed) :
    wadd (Reader.waitLoop r filesize events).1.cur_size filesize
      ≤ (Reader.waitLoop r filesize events).1.max_size := by
  induction events generalizing r with
  | nil =>
      rw [waitLoop_nil] at hw ⊢
      by_cases hc : wadd r.cur_size filesize > r.max_size
      · simp only [if_pos hc] at hw
        exact absurd hw (by simp)
      · simp only [if_neg hc]
        omega
  | cons ev rest ih =>
      by_cases hc : wadd r.cur_size filesize > r.max_size
      · by_cases hfail : ∃ e, (Reader.next r ev.sel ev.res ev.fs).2.2 = .fail e
        · obtain ⟨e, he⟩ := hfail
          rw [waitLoop_fail r filesize ev rest e hc he] at hw
          exact absurd hw (by simp)
        · push_neg at hfail
          rw [waitLoop_step r filesize ev rest hc hfail] at hw ⊢
          exact ih (Reader.next r ev.sel ev.res ev.fs).1 hw
      · rw [waitLoop_not_over r filesize ev rest hc] at hw ⊢
        dsimp only
        omega

theorem sumSizes_append (l1 l2 : List Entry) :
    sumSizes (l1 ++ l2) = sumSizes l1 + sumSizes l2 := by
  simp [sumSizes]

-- Case equations for Reader.add.

theorem add_statfail_eq (r : Reader) (path reference : String)
    (fs0 : String → Except IOError Nat) (events : List DrainEvent) (e : IOError)
    (hf : fs0 path = .error e) :
    Reader.add r path reference fs0 events = (r, [], .statError e) := by
  simp [Reader.add, hf]

theorem add_oversized_eq (r : Reader) (path reference : String)
    (fs0 : String → Except IOError Nat) (events : List DrainEvent) (n : Nat)
    (hf : fs0 path = .ok n) (hn : n > r.max_size) :
    Reader.add r path reference fs0 events
      = (r, [], .sizeExceeded ("\"" ++ path ++ " is bigger than the maximum allowed buffer size "
          ++ toString r.max_size)) := by
  simp [Reader.add, hf, hn]

theorem add_proceed_eq (r : Reader) (path reference : String)
    (fs0 : String → Except IOError Nat) (events : List DrainEvent) (n : Nat)
    (hf : fs0 path = .ok n) (hn : ¬ n > r.max_size)
    (hw : (Reader.waitLoop r n events).2.2 = .proceed) :
    Reader.add r path reference fs0 events
      = ({ (Reader.waitLoop r n events).1 with
            inflight := (Reader.waitLoop r n events).1.inflight
              ++ [{ path := path, reference := reference, size := n }]
            cur_size := wadd (Reader.waitLoop r n events).1.cur_size n },
         (Reader.waitLoop r n events).2.1
           ++ [{ (Reader.waitLoop r n events).1 with
                 inflight := (Reader.waitLoop r n events).1.inflight
                   ++ [{ path := path, reference := reference, size := n }]
                 cur_size := wadd (Reader.waitLoop r n events).1.cur_size n }],
         .ok) := by
  simp [Reader.add, hf, hn, hw]

theorem add_failed_eq (r : Reader) (path reference : String)
    (fs0 : String → Except IOError Nat) (events : List DrainEvent) (n : Nat) (e : DynError)
    (hf : fs0 path = .ok n) (hn : ¬ n > r.max_size)
    (hw : (Reader.waitLoop r n events).2.2 = .failed e) :
    Reader.add r path reference fs0 events
      = ((Reader.waitLoop r n events).1, (Reader.waitLoop r n events).2.1, .drainError e) := by
  simp [Reader.add, hf, hn, hw]

theorem add_exhausted_eq (r : Reader) (path reference : String)
    (fs0 : String → Except IOError Nat) (events : List DrainEvent) (n : Nat)
    (hf : fs0 path = .ok n) (hn : ¬ n > r.max_size)
    (hw : (Reader.waitLoop r n events).2.2 = .exhausted) :
    Reader.add r path reference fs0 events
      = ((Reader.waitLoop r n events).1, (Reader.waitLoop r n events).2.1, .stuck) := by
  simp [Reader.add, hf, hn, hw]

-- Reader.add preserves the safety invariant, at the final state and at every
-- intermediate state.
theorem add_invle (M : Nat) (fs : String → Nat) (hM : M < 2 ^ 63)
    (r : Reader) (h : InvLe M fs r) (path reference : String)
    (events : List DrainEvent) (hst : StableEvents fs events) :
    InvLe M fs (Reader.add r path reference (stableFs fs) events).1
    ∧ ∀ s ∈ (Reader.add r path reference (stableFs fs) events).2.1, InvLe M fs s := by
  have hf : stableFs fs path = .ok (fs path) := rfl
  by_cases hn : fs path > r.max_size
  · rw [add_oversized_eq r path reference _ events (fs path) hf hn]
    exact ⟨h, by simp⟩
  · have hM64 : M < 2 ^ 64 := lt_trans hM (by norm_num)
    obtain ⟨hw1, hw2⟩ := waitLoop_invle M fs hM64 (fs path) events r h hst
    cases hwe : (Reader.waitLoop r (fs path) events).2.2 with
    | proceed =>
        rw [add_proceed_eq r path reference _ events (fs path) hf hn hwe]
        have hbound := waitLoop_proceed_bound (fs path) events r hwe
        obtain ⟨hmax, hsum, hcur, hcons⟩ := hw1
        have hfsle : fs path ≤ M := by
          have := h.1
          omega
        have hwadd : wadd (Reader.waitLoop r (fs path) events).1.cur_size (fs path)
            = (Reader.waitLoop r (fs path) events).1.cur_size + fs path := by
          unfold wadd
          omega
        have hr2 : InvLe M fs
            { (Reader.waitLoop r (fs path) events).1 with
              inflight := (Reader.waitLoop r (fs path) events).1.inflight
                ++ [{ path := path, reference := reference, size := fs path }]
              cur_size := wadd (Reader.waitLoop r (fs path) events).1.cur_size (fs path) } := by
          refine ⟨hmax, ?_, ?_, ?_⟩
          · dsimp only
            rw [hwadd, sumSizes_append]
            have hone : sumSizes [{ path := path, reference := reference, size := fs path }]
                = fs path := by
              simp [sumSizes]
            omega
          · dsimp only
            omega
          · intro e2 he2
            rcases List.mem_append.mp he2 with he2 | he2
            · exact hcons e2 he2
            · simp only [List.mem_singleton] at he2
              subst he2
              rfl
        refine ⟨hr2, ?_⟩
        intro s hs
        rcases List.mem_append.mp hs with hs | hs
        · exact hw2 s hs
        · simp only [List.mem_singleton] at hs
          exact hs ▸ hr2
    | failed e =>
        rw [add_failed_eq r path reference _ events (fs path) e hf hn hwe]
        exact ⟨hw1, hw2⟩
    | exhausted =>
        rw [add_exhausted_eq r path reference _ events (fs path) hf hn hwe]
        exact ⟨hw1, hw2⟩

-- Reader.add preserves exact accounting when every drained task succeeded.
theorem add_inveq (M : Nat) (fs : String → Nat) (hM : M < 2 ^ 63)
    (r : Reader) (h : InvEq M fs r) (path reference : String)
    (events : List DrainEvent) (hst : StableEvents fs events) (hok : AllOkEvents events) :
    InvEq M fs (Reader.add r path reference (stableFs fs) events).1
    ∧ ∀ s ∈ (Reader.add r path reference (stableFs fs) events).2.1, InvEq M fs s := by
  have hf : stableFs fs path = .ok (fs path) := rfl
  by_cases hn : fs path > r.max_size
  · rw [add_oversized_eq r path reference _ events (fs path) hf hn]
    exact ⟨h, by simp⟩
  · have hM64 : M < 2 ^ 64 := lt_trans hM (by norm_num)
    obtain ⟨hw1, hw2⟩ := waitLoop_inveq M fs hM64 (fs path) events r h hst hok
    cases hwe : (Reader.waitLoop r (fs path) events).2.2 with
    | proceed =>
        rw [add_proceed_eq r path reference _ events (fs path) hf hn hwe]
        have hbound := waitLoop_proceed_bound (fs path) events r hwe
        obtain ⟨hmax, hsum, hcur, hcons⟩ := hw1
        have hfsle : fs path ≤ M := by
          have := h.1
          omega
        have hwadd : wadd (Reader.waitLoop r (fs path) events).1.cur_size (fs path)
            = (Reader.waitLoop r (fs path) events).1.cur_size + fs path := by
          unfold wadd
          omega
        have hr2 : InvEq M fs
            { (Reader.waitLoop r (fs path) events).1 with
              inflight := (Reader.waitLoop r (fs path) events).1.inflight
                ++ [{ path := path, reference := reference, size := fs path }]
              cur_size := wadd (Reader.waitLoop r (fs path) events).1.cur_size (fs path) } := by
          refine ⟨hmax, ?_, ?_, ?_⟩
          · dsimp only
            rw [hwadd, sumSizes_append]
            have hone : sumSizes [{ path := path, reference := reference, size := fs path }]
                = fs path := by
              simp [sumSizes]
            omega
          · dsimp only
            omega
          · intro e2 he2
            rcases List.mem_append.mp he2 with he2 | he2
            · exact hcons e2 he2
            · simp only [List.mem_singleton] at he2
              subst he2
              rfl
        refine ⟨hr2, ?_⟩
        intro s hs
        rcases List.mem_append.mp hs with hs | hs
        · exact hw2 s hs
        · simp only [List.mem_singleton] at hs
          exact hs ▸ hr2
    | failed e =>
        rw [add_failed_eq r path reference _ events (fs path) e hf hn hwe]
        exact ⟨hw1, hw2⟩
    | exhausted =>
        rw [add_exhausted_eq r path reference _ events (fs path) hf hn hwe]
        exact ⟨hw1, hw2⟩

-- Case equations for the fail-fast driver.

theorem runOps_nil (r : Reader) : Reader.runOps r [] = (r, [], true) := rfl

theorem runOps_add_ok (r : Reader) (path reference : String)
    (fs0 : String → Except IOError Nat) (events : List DrainEvent) (rest : List Op)
    (ha : (Reader.add r path reference fs0 events).2.2 = .ok) :
    Reader.runOps r (.add path reference fs0 events :: rest)
      = ((Reader.runOps (Reader.add r path reference fs0 events).1 rest).1,
         (Reader.add r path reference fs0 events).2.1
           ++ (Reader.runOps (Reader.add r path reference fs0 events).1 rest).2.1,
         (Reader.runOps (Reader.add r path reference fs0 events).1 rest).2.2) := by
  simp [Reader.runOps, ha]

theorem runOps_add_fail (r : Reader) (path reference : String)
    (fs0 : String → Except IOError Nat) (events : List DrainEvent) (rest : List Op)
    (ha : (Reader.add r path reference fs0 events).2.2 ≠ .ok) :
    Reader.runOps r (.add path reference fs0 events :: rest)
      = ((Reader.add r path reference fs0 events).1,
         (Reader.add r path reference fs0 events).2.1, false) := by
  cases h2 : (Reader.add r path reference fs0 events).2.2 with
  | ok => exact absurd h2 ha
  | sizeExceeded s => simp [Reader.runOps, h2]
  | statError e => simp [Reader.runOps, h2]
  | drainError e => simp [Reader.runOps, h2]
  | stuck => simp [Reader.runOps, h2]

theorem runOps_drain_fail (r : Reader) (ev : DrainEvent) (rest : List Op) (e : DynError)
    (hn : (Reader.next r ev.sel ev.res ev.fs).2.2 = .fail e) :
    Reader.runOps r (.drain ev :: rest)
      = ((Reader.next r ev.sel ev.res ev.fs).1,
         [(Reader.next r ev.sel ev.res ev.fs).1], false) := by
  simp [Reader.runOps, hn]

theorem runOps_drain_ok (r : Reader) (ev : DrainEvent) (rest : List Op)
    (hn : ∀ e, (Reader.next r ev.sel ev.res ev.fs).2.2 ≠ .fail e) :
    Reader.runOps r (.drain ev :: rest)
      = ((Reader.runOps (Reader.next r ev.sel ev.res ev.fs).1 rest).1,
         (Reader.next r ev.sel ev.res ev.fs).1
           :: (Reader.runOps (Reader.next r ev.sel ev.res ev.fs).1 rest).2.1,
         (Reader.runOps (Reader.next r ev.sel ev.res ev.fs).1 rest).2.2) := by
  cases h2 : (Reader.next r ev.sel ev.res ev.fs).2.2 with
  | fail e => exact absurd h2 (hn e)
  | more p b => simp [Reader.runOps, h2]
  | done => simp [Reader.runOps, h2]

-- Every state a run visits, and the state it ends in, satisfies the safety
-- invariant.
theorem runOps_invle (M : Nat) (fs : String → Nat) (hM : M < 2 ^ 63)
    (ops : List Op) (r : Reader) (h : InvLe M fs r) (hst : StableOps fs ops) :
    InvLe M fs (Reader.runOps r ops).1
    ∧ ∀ s ∈ (Reader.runOps r ops).2.1, InvLe M fs s := by
  have hM64 : M < 2 ^ 64 := lt_trans hM (by norm_num)
  induction ops generalizing r with
  | nil =>
      rw [runOps_nil]
      exact ⟨h, by simp⟩
  | cons op rest ih =>
      cases op with
      | add path reference fs0 events =>
          obtain ⟨hfs0, hev, hrest⟩ := hst
          subst hfs0
          obtain ⟨ha1, ha2⟩ := add_invle M fs hM r h path reference events hev
          by_cases hok : (Reader.add r path reference (stableFs fs) events).2.2 = .ok
          · rw [runOps_add_ok r path reference _ events rest hok]
            obtain ⟨hr1, hr2⟩ := ih (Reader.add r path reference (stableFs fs) events).1 ha1 hrest
            refine ⟨hr1, ?_⟩
            intro s hs
            rcases List.mem_append.mp hs with hs | hs
            · exact ha2 s hs
            · exact hr2 s hs
          · rw [runOps_add_fail r path reference _ events rest hok]
            exact ⟨ha1, ha2⟩
      | drain ev =>
          obtain ⟨hfs, hrest⟩ := hst
          have hn : InvLe M fs (Reader.next r ev.sel ev.res ev.fs).1 := by
            rw [hfs]
            exact next_state_invle M fs hM64 r h ev.sel ev.res
          by_cases hfail : ∃ e, (Reader.next r ev.sel ev.res ev.fs).2.2 = .fail e
          · obtain ⟨e, he⟩ := hfail
            rw [runOps_drain_fail r ev rest e he]
            exact ⟨hn, by simpa using hn⟩
          · push_neg at hfail
            rw [runOps_drain_ok r ev rest hfail]
            obtain ⟨hr1, hr2⟩ := ih (Reader.next r ev.sel ev.res ev.fs).1 hn hrest
            refine ⟨hr1, ?_⟩
            intro s hs
            rcases List.mem_cons.mp hs with hs | hs
            · exact hs ▸ hn
            · exact hr2 s hs

-- Exact accounting holds at every state of a run in which every drained task
-- completed successfully.
theorem runOps_inveq (M : Nat) (fs : String → Nat) (hM : M < 2 ^ 63)
    (ops : List Op) (r : Reader) (h : InvEq M fs r) (hst : StableOps fs ops)
    (hok : AllOkOps ops) :
    InvEq M fs (Reader.runOps r ops).1
    ∧ ∀ s ∈ (Reader.runOps r ops).2.1, InvEq M fs s := by
  have hM64 : M < 2 ^ 64 := lt_trans hM (by norm_num)
  induction ops generalizing r with
  | nil =>
      rw [runOps_nil]
      exact ⟨h, by simp⟩
  | cons op rest ih =>
      cases op with
      | add path reference fs0 events =>
          obtain ⟨hfs0, hev, hrest⟩ := hst
          obtain ⟨hoke, hokrest⟩ := hok
          subst hfs0
          obtain ⟨ha1, ha2⟩ := add_inveq M fs hM r h path reference events hev hoke
          by_cases hokr : (Reader.add r path reference (stableFs fs) events).2.2 = .ok
          · rw [runOps_add_ok r path reference _ events rest hokr]
            obtain ⟨hr1, hr2⟩ := ih (Reader.add r path reference (stableFs fs) events).1 ha1 hrest hokrest
            refine ⟨hr1, ?_⟩
            intro s hs
            rcases List.mem_append.mp hs with hs | hs
            · exact ha2 s hs
            · exact hr2 s hs
          · rw [runOps_add_fail r path reference _ events rest hokr]
            exact ⟨ha1, ha2⟩
      | drain ev =>
          obtain ⟨hfs, hrest⟩ := hst
          obtain ⟨⟨b, hb⟩, hokrest⟩ := hok
          have hn : InvEq M fs (Reader.next r ev.sel ev.res ev.fs).1 := by
            rw [hfs, hb]
            exact next_state_inveq M fs hM64 r h ev.sel b
          by_cases hfail : ∃ e, (Reader.next r ev.sel ev.res ev.fs).2.2 = .fail e
          · obtain ⟨e, he⟩ := hfail
            rw [runOps_drain_fail r ev rest e he]
            exact ⟨hn, by simpa using hn⟩
          · push_neg at hfail
            rw [runOps_drain_ok r ev rest hfail]
            obtain ⟨hr1, hr2⟩ := ih (Reader.next r ev.sel ev.res ev.fs).1 hn hrest hokrest
            refine ⟨hr1, ?_⟩
            intro s hs
            rcases List.mem_cons.mp hs with hs | hs
            · exact hs ▸ hn
            · exact hr2 s hs

-- The freshly constructed Reader satisfies exact accounting.
theorem new_inveq (M : Nat) (rel : Option String) (fs : String → Nat) :
    InvEq M fs (Reader.new M rel) := by
  refine ⟨rfl, rfl, Nat.zero_le M, ?_⟩
  intro e he
  simp [Reader.new] at he

/-- C3 (amended): cur_size never exceeds max_size at any observable instant
of a fail-fast run, provided every metadata observation (submit-time and
drain-time) reports the file's stable size and the budget is below 2^63, so
the wrapping u64 arithmetic stays exact: the admission loop of Reader::add
blocks on drain steps until cur_size + filesize ≤ max_size before spawning
the task and adding the size.  Without the stable-metadata proviso the
claim fails: a drain whose re-read size exceeds cur_size wraps the
release-mode u64 subtraction far above the budget (see the
counterexample). -/
theorem cur_size_never_exceeds_max (M : Nat) (fs : String → Nat)
    (rel : Option String) (ops : List Op) (hM : M < 2 ^ 63)
    (hstable : StableOps fs ops) (hfit : SizesFit M fs ops) :
    (∀ s ∈ (Reader.runOps (Reader.new M rel) ops).2.1, s.cur_size ≤ M)
    ∧ (Reader.runOps (Reader.new M rel) ops).1.cur_size ≤ M := by
  obtain ⟨h1, h2⟩ :=
    runOps_invle M fs hM ops (Reader.new M rel) (new_inveq M rel fs).toInvLe hstable
  exact ⟨fun s hs => (h2 s hs).2.2.1, h1.2.2.1⟩

theorem cur_size_never_exceeds_max_witness :
    (Reader.runOps (Reader.new 10 none)
      [Op.add "a" "ref" (stableFs (fun _ => 5)) [],
       Op.drain ⟨0, TaskResult.ok true, stableFs (fun _ => 5)⟩]).1.cur_size ≤ 10 :=
  (cur_size_never_exceeds_max 10 (fun _ => 5) none
    [Op.add "a" "ref" (stableFs (fun _ => 5)) [],
     Op.drain ⟨0, TaskResult.ok true, stableFs (fun _ => 5)⟩]
    (by decide) ⟨rfl, trivial, rfl, trivial⟩ ⟨by decide, trivial⟩).2

/-- C2 counterexample: the drain step does not subtract the submit-time
size; it subtracts the size re-read from path.metadata() at drain time
(src/main.rs:151).  Submitting a 5-byte file and draining it after the
metadata reports 3 bytes leaves cur_size = 2 with an empty in-flight set,
so cur_size differs from the sum of declared sizes of the undrained
entries. -/
theorem drain_subtracts_drain_time_size :
    (Reader.runOps (Reader.new 10 none)
      [Op.add "a" "ref" (fun _ => Except.ok 5) [],
       Op.drain ⟨0, TaskResult.ok true, fun _ => Except.ok 3⟩]).1.inflight = []
    ∧ (Reader.runOps (Reader.new 10 none)
        [Op.add "a" "ref" (fun _ => Except.ok 5) [],
         Op.drain ⟨0, TaskResult.ok true, fun _ => Except.ok 3⟩]).1.cur_size = 2
    ∧ ¬ ((Reader.runOps (Reader.new 10 none)
          [Op.add "a" "ref" (fun _ => Except.ok 5) [],
           Op.drain ⟨0, TaskResult.ok true, fun _ => Except.ok 3⟩]).1.cur_size
        = sumSizes (Reader.runOps (Reader.new 10 none)
          [Op.add "a" "ref" (fun _ => Except.ok 5) [],
           Op.drain ⟨0, TaskResult.ok true, fun _ => Except.ok 3⟩]).1.inflight) := by
  refine ⟨?_, ?_, ?_⟩ <;> decide

/-- C2 (amended): cur_size equals the sum of the submit-time declared sizes
over all currently admitted but not yet drained entries, provided every
drain observes the same metadata size as at submit time (stable
filesystem), every drained task completed successfully, and the budget is
below 2^63 so the wrapping u64 admission additions are exact; drains of
successful tasks subtract the drain-time metadata size, a drain of a failed
task subtracts nothing, and with a budget of 2^63 or more the release-mode
program can admit through a wrapped sum that breaks the equality. -/
theorem cur_size_eq_sum_of_stable_ok_runs (M : Nat) (fs : String → Nat)
    (rel : Option String) (ops : List Op) (hM : M < 2 ^ 63)
    (hstable : StableOps fs ops) (hok : AllOkOps ops) :
    (∀ s ∈ (Reader.runOps (Reader.new M rel) ops).2.1,
        s.cur_size = sumSizes s.inflight)
    ∧ (Reader.runOps (Reader.new M rel) ops).1.cur_size
        = sumSizes (Reader.runOps (Reader.new M rel) ops).1.inflight := by
  obtain ⟨h1, h2⟩ :=
    runOps_inveq M fs hM ops (Reader.new M rel) (new_inveq M rel fs) hstable hok
  exact ⟨fun s hs => (h2 s hs).2.1, h1.2.1⟩

theorem cur_size_eq_sum_of_stable_ok_runs_witness :
    (Reader.runOps (Reader.new 10 none)
      [Op.add "a" "ref" (stableFs (fun _ => 5)) [],
       Op.drain ⟨0, TaskResult.ok true, stableFs (fun _ => 5)⟩]).1.cur_size
      = sumSizes (Reader.runOps (Reader.new 10 none)
          [Op.add "a" "ref" (stableFs (fun _ => 5)) [],
           Op.drain ⟨0, TaskResult.ok true, stableFs (fun _ => 5)⟩]).1.inflight :=
  (cur_size_eq_sum_of_stable_ok_runs 10 (fun _ => 5) none
    [Op.add "a" "ref" (stableFs (fun _ => 5)) [],
     Op.drain ⟨0, TaskResult.ok true, stableFs (fun _ => 5)⟩]
    (by decide) ⟨rfl, trivial, rfl, trivial⟩ ⟨trivial, ⟨true, rfl⟩, trivial⟩).2

/-- C4: the byte budget the Reader is constructed with in main is
args.max_size XOR 30 (Rust `^` is bitwise XOR), not max_size shifted by 30
bits as the "in GBytes" option documentation implies; the default
max_size = 1024 yields a budget of 1054 bytes. -/
theorem budget_is_xor_thirty :
    mainBudget 1024 = 1054
    ∧ mainBudget 1024 ≠ 1024 * 2 ^ 30
    ∧ (Reader.new (mainBudget 1024) none).max_size = 1054 := by
  refine ⟨by decide, by decide, by decide⟩

/-- C1 counterexample: a task that completed with an IOError is drained
(removed from the in-flight set, release hook invoked, error returned) but
its size is NOT subtracted from cur_size: with one 5-byte file in flight
and cur_size = 5, the error drain leaves cur_size = 5 while the in-flight
set becomes empty, so the budget reservation is leaked, contradicting the
claim that accounting happens unconditionally before the error return. -/
theorem drain_error_keeps_cur_size :
    (Reader.next ⟨[⟨"a", "h", 5⟩], [], 5, 10⟩ 0
        (.err ⟨.otherKind, "boom", none⟩) (stableFs (fun _ => 5))).1.cur_size = 5
    ∧ (Reader.next ⟨[⟨"a", "h", 5⟩], [], 5, 10⟩ 0
        (.err ⟨.otherKind, "boom", none⟩) (stableFs (fun _ => 5))).1.inflight = []
    ∧ (Reader.next ⟨[⟨"a", "h", 5⟩], [], 5, 10⟩ 0
        (.err ⟨.otherKind, "boom", none⟩) (stableFs (fun _ => 5))).2.2
        = .fail (.emsg "failed reading a: boom")
    ∧ ¬ ((Reader.next ⟨[⟨"a", "h", 5⟩], [], 5, 10⟩ 0
          (.err ⟨.otherKind, "boom", none⟩) (stableFs (fun _ => 5))).1.cur_size
        = sumSizes (Reader.next ⟨[⟨"a", "h", 5⟩], [], 5, 10⟩ 0
          (.err ⟨.otherKind, "boom", none⟩) (stableFs (fun _ => 5))).1.inflight) := by
  refine ⟨?_, ?_, ?_, ?_⟩ <;> decide

/-- C1 (amended): when a task completes with an IOError, the drain step
removes it from the in-flight set and invokes the release hook, but returns
the formatted error WITHOUT subtracting the task's size from cur_size; the
subtraction happens only on drains of successfully completed tasks. -/
theorem next_error_branch_no_subtract (r : Reader) (sel : Nat) (e : IOError)
    (entry : Entry) (f : String → Except IOError Nat)
    (hget : r.inflight[sel % r.inflight.length]? = some entry) :
    Reader.next r sel (.err e) f
      = ({ r with inflight := r.inflight.eraseIdx (sel % r.inflight.length) },
         { released := r.releaseArgv entry.path },
         .fail (.emsg ("failed reading " ++ entry.path ++ ": " ++ e.emsg)))
    ∧ (Reader.next r sel (.err e) f).1.cur_size = r.cur_size :=
  ⟨next_err_eq r sel e f entry hget, by rw [next_err_eq r sel e f entry hget]⟩

theorem next_error_branch_no_subtract_witness :
    (Reader.next ⟨[⟨"b", "h", 7⟩], ["mv"], 7, 10⟩ 0
        (.err ⟨.notFound, "gone", none⟩) (stableFs (fun _ => 7))).1.cur_size
      = (⟨[⟨"b", "h", 7⟩], ["mv"], 7, 10⟩ : Reader).cur_size :=
  (next_error_branch_no_subtract ⟨[⟨"b", "h", 7⟩], ["mv"], 7, 10⟩ 0
    ⟨.notFound, "gone", none⟩ ⟨"b", "h", 7⟩ (stableFs (fun _ => 7)) (by decide)).2

/-- C5: a path whose declared size (filesystem metadata at submit time) is
strictly greater than max_size is rejected by Reader::add immediately with
the formatted size-exceeded error: no task is spawned, no drain step is
performed, and the Reader state (in particular cur_size and the in-flight
set) is unchanged. -/
theorem add_rejects_oversized (r : Reader) (path reference : String)
    (fs0 : String → Except IOError Nat) (events : List DrainEvent) (n : Nat)
    (hstat : fs0 path = .ok n) (hn : n > r.max_size) :
    Reader.add r path reference fs0 events
      = (r, [], .sizeExceeded ("\"" ++ path ++ " is bigger than the maximum allowed buffer size "
          ++ toString r.max_size))
    ∧ (Reader.add r path reference fs0 events).1.cur_size = r.cur_size
    ∧ (Reader.add r path reference fs0 events).1.inflight = r.inflight :=
  ⟨add_oversized_eq r path reference fs0 events n hstat hn,
   by rw [add_oversized_eq r path reference fs0 events n hstat hn],
   by rw [add_oversized_eq r path reference fs0 events n hstat hn]⟩

theorem add_rejects_oversized_witness :
    Reader.add (Reader.new 10 none) "big" "ref" (stableFs (fun _ => 11)) []
      = (Reader.new 10 none, [],
         .sizeExceeded "\"big is bigger than the maximum allowed buffer size 10") :=
  (add_rejects_oversized (Reader.new 10 none) "big" "ref"
    (stableFs (fun _ => 11)) [] 11 rfl (by decide)).1

-- The admission loop cannot exhaust its completion events when exact
-- accounting holds, the new file fits in the budget, and at least as many
-- completions are available as there are in-flight tasks: each over-budget
-- iteration drains one in-flight task (or exits with that drain's error),
-- and an empty in-flight set forces cur_size = 0, which satisfies the
-- admission condition at once.
theorem waitLoop_no_exhaust (M : Nat) (fs : String → Nat) (hM : M < 2 ^ 63)
    (filesize : Nat) (hfs : filesize ≤ M) (events : List DrainEvent) (r : Reader)
    (h : InvEq M fs r) (hst : StableEvents fs events)
    (hlen : r.inflight.length ≤ events.length) :
    (Reader.waitLoop r filesize events).2.2 ≠ LoopExit.exhausted := by
  have hM64 : M < 2 ^ 64 := lt_trans hM (by norm_num)
  induction events generalizing r with
  | nil =>
      rw [waitLoop_nil]
      have hempty : r.inflight = [] :=
        List.length_eq_zero.mp (Nat.le_zero.mp hlen)
      have hcur : r.cur_size = 0 := by
        rw [h.2.1, hempty]
        rfl
      have hc : ¬ wadd r.cur_size filesize > r.max_size := by
        rw [hcur, h.1]
        unfold wadd
        omega
      simp [if_neg hc]
  | cons ev rest ih =>
      obtain ⟨hfse, hrest⟩ := hst
      by_cases hc : wadd r.cur_size filesize > r.max_size
      · have hne : r.inflight ≠ [] := by
          intro hempty
          have h0 : r.cur_size = 0 := by
            rw [h.2.1, hempty]
            rfl
          rw [h0, h.1] at hc
          unfold wadd at hc
          omega
        obtain ⟨entry, hget⟩ := get_mod_some r.inflight ev.sel hne
        cases hres : ev.res with
        | err e =>
            have hfail : (Reader.next r ev.sel ev.res ev.fs).2.2
                = .fail (.emsg ("failed reading " ++ entry.path ++ ": " ++ e.emsg)) := by
              rw [hres, next_err_eq r ev.sel e ev.fs entry hget]
            rw [waitLoop_fail r filesize ev rest _ hc hfail]
            simp
        | ok b =>
            have hfok : ev.fs entry.path = .ok (fs entry.path) := by
              rw [hfse]
              rfl
            have heq := next_ok_eq r ev.sel b ev.fs entry (fs entry.path) hget hfok
            have hnf : ∀ e2, (Reader.next r ev.sel ev.res ev.fs).2.2 ≠ .fail e2 := by
              intro e2
              rw [hres, heq]
              simp
            rw [waitLoop_step r filesize ev rest hc hnf]
            have hinv : InvEq M fs (Reader.next r ev.sel ev.res ev.fs).1 := by
              rw [hres, hfse]
              exact next_state_inveq M fs hM64 r h ev.sel b
            have hget' : r.inflight.get? (ev.sel % r.inflight.length) = some entry := by
              rw [List.get?_eq_getElem?]
              exact hget
            have hlen2 : (Reader.next r ev.sel ev.res ev.fs).1.inflight.length
                ≤ rest.length := by
              rw [hres, heq]
              dsimp only
              rw [length_eraseIdx_of_get? r.inflight (ev.sel % r.inflight.length) entry hget']
              have hpos : 0 < r.inflight.length := List.length_pos.mpr hne
              simp only [List.length_cons] at hlen
              omega
            exact ih (Reader.next r ev.sel ev.res ev.fs).1 hinv hrest hlen2
      · rw [waitLoop_not_over r filesize ev rest hc]
        simp

/-- C6 (amended): the admission loop of Reader::add terminates for every
submission whose declared size is at most max_size, provided the run is
fail-fast against a stable filesystem, every drained task succeeded, and
the budget is below 2^63: then the state in which the in-flight set is
empty while cur_size + declaredSize > max_size still holds is unreachable
(an empty set forces cur_size = 0), and the loop, given at least one
completion event per in-flight task, never exhausts them.  Without the
stable-metadata proviso that state IS reachable and the loop spins forever
on next() returning Ok(None) (see the counterexample). -/
theorem admission_loop_cannot_spin_on_empty (M : Nat) (fs : String → Nat)
    (rel : Option String) (ops : List Op) (path : String) (events : List DrainEvent)
    (hM : M < 2 ^ 63) (hstable : StableOps fs ops) (hok : AllOkOps ops)
    (hpath : fs path ≤ M) (hevents : StableEvents fs events)
    (hlen : (Reader.runOps (Reader.new M rel) ops).1.inflight.length ≤ events.length) :
    ((Reader.runOps (Reader.new M rel) ops).1.inflight = []
      → (Reader.runOps (Reader.new M rel) ops).1.cur_size + fs path ≤ M)
    ∧ (Reader.waitLoop (Reader.runOps (Reader.new M rel) ops).1 (fs path) events).2.2
        ≠ LoopExit.exhausted := by
  obtain ⟨h1, -⟩ :=
    runOps_inveq M fs hM ops (Reader.new M rel) (new_inveq M rel fs) hstable hok
  constructor
  · intro hempty
    have h0 : (Reader.runOps (Reader.new M rel) ops).1.cur_size = 0 := by
      rw [h1.2.1, hempty]
      rfl
    rw [h0]
    omega
  · exact waitLoop_no_exhaust M fs hM (fs path) hpath events _ h1 hevents hlen

theorem admission_loop_cannot_spin_on_empty_witness :
    (Reader.waitLoop (Reader.runOps (Reader.new 10 none)
      [Op.add "a" "ref" (stableFs (fun _ => 5)) []]).1 5
      [⟨0, TaskResult.ok true, stableFs (fun _ => 5)⟩]).2.2 ≠ LoopExit.exhausted :=
  (admission_loop_cannot_spin_on_empty 10 (fun _ => 5) none
    [Op.add "a" "ref" (stableFs (fun _ => 5)) []] "p"
    [⟨0, TaskResult.ok true, stableFs (fun _ => 5)⟩]
    (by decide) ⟨rfl, trivial, trivial⟩ ⟨trivial, trivial⟩ (by decide)
    ⟨rfl, trivial⟩ (by decide)).2

/-- C10 counterexample: the release hook is NOT invoked for every completed
task.  On the success branch Reader::next re-reads path.metadata() with `?`
BEFORE printing and releasing (src/main.rs:151), so when that drain-time
stat fails for a task that completed with Ok(true), next returns the stat
error without invoking the configured release hook. -/
theorem drain_stat_failure_skips_release :
    (Reader.next ⟨[⟨"f", "h", 5⟩], ["mv", "-t", "archive"], 5, 10⟩ 0
        (.ok true) (fun _ => .error ⟨.notFound, "gone", none⟩)).2.1.released = none
    ∧ (Reader.next ⟨[⟨"f", "h", 5⟩], ["mv", "-t", "archive"], 5, 10⟩ 0
        (.ok true) (fun _ => .error ⟨.notFound, "gone", none⟩)).2.2
        = .fail (.io ⟨.notFound, "gone", none⟩)
    ∧ (⟨[⟨"f", "h", 5⟩], ["mv", "-t", "archive"], 5, 10⟩ : Reader).releaseArgv "f"
        = some ["mv", "-t", "archive", "f"] := by
  refine ⟨?_, ?_, ?_⟩ <;> decide

/-- C10 (amended): the release hook invocation is a no-op exactly when no
release command is configured, and otherwise runs the configured program
with its configured arguments plus the drained path appended as the final
argument, ignoring the exit status and any spawn failure (the model's
release has no error channel, mirroring `.status().ok()`).  The hook is
invoked on every IOError drain and on every match/mismatch drain whose
drain-time metadata re-read succeeds; when that re-read fails on a
successfully completed task, the drain returns the stat error without
invoking the hook. -/
theorem release_hook_behavior :
    (∀ (r : Reader) (path : String), r.release = [] → r.releaseArgv path = none)
    ∧ (∀ (r : Reader) (path program : String) (params : List String),
        r.release = program :: params →
        r.releaseArgv path = some (program :: (params ++ [path])))
    ∧ (∀ (M : Nat) (s : String), (Reader.new M (some s)).release = splitWhitespace s)
    ∧ (∀ (r : Reader) (sel : Nat) (entry : Entry) (e : IOError)
        (f : String → Except IOError Nat),
        r.inflight[sel % r.inflight.length]? = some entry →
        (Reader.next r sel (.err e) f).2.1.released = r.releaseArgv entry.path)
    ∧ (∀ (r : Reader) (sel : Nat) (entry : Entry) (b : Bool) (sz : Nat)
        (f : String → Except IOError Nat),
        r.inflight[sel % r.inflight.length]? = some entry →
        f entry.path = .ok sz →
        (Reader.next r sel (.ok b) f).2.1.released = r.releaseArgv entry.path
          ∧ (Reader.next r sel (.ok b) f).2.1.printed = some (entry.path, b))
    ∧ (∀ (r : Reader) (sel : Nat) (entry : Entry) (b : Bool) (e : IOError)
        (f : String → Except IOError Nat),
        r.inflight[sel % r.inflight.length]? = some entry →
        f entry.path = .error e →
        (Reader.next r sel (.ok b) f).2.1.released = none
          ∧ (Reader.next r sel (.ok b) f).2.2 = .fail (.io e)) := by
  refine ⟨?_, ?_, ?_, ?_, ?_, ?_⟩
  · intro r path h
    simp [Reader.releaseArgv, h]
  · intro r path program params h
    simp [Reader.releaseArgv, h]
  · intro M s
    rfl
  · intro r sel entry e f hget
    rw [next_err_eq r sel e f entry hget]
  · intro r sel entry b sz f hget hf
    rw [next_ok_eq r sel b f entry sz hget hf]
    exact ⟨rfl, rfl⟩
  · intro r sel entry b e f hget hf
    rw [next_ok_statfail_eq r sel b f entry e hget hf]
    exact ⟨rfl, rfl⟩

theorem release_hook_behavior_witness :
    ((Reader.next ⟨[⟨"f", "h", 5⟩], ["mv", "-t", "archive"], 5, 10⟩ 0
        (.ok true) (stableFs (fun _ => 5))).2.1.released
      = (⟨[⟨"f", "h", 5⟩], ["mv", "-t", "archive"], 5, 10⟩ : Reader).releaseArgv "f")
    ∧ ((Reader.next ⟨[⟨"g", "h", 5⟩], ["mv"], 5, 10⟩ 0
        (.err ⟨.otherKind, "boom", none⟩) (stableFs (fun _ => 5))).2.1.released
      = (⟨[⟨"g", "h", 5⟩], ["mv"], 5, 10⟩ : Reader).releaseArgv "g")
    ∧ (⟨[], [], 0, 10⟩ : Reader).releaseArgv "x" = none :=
  ⟨(release_hook_behavior.2.2.2.2.1 ⟨[⟨"f", "h", 5⟩], ["mv", "-t", "archive"], 5, 10⟩ 0
      ⟨"f", "h", 5⟩ true 5 (stableFs (fun _ => 5)) (by decide) rfl).1,
   release_hook_behavior.2.2.2.1 ⟨[⟨"g", "h", 5⟩], ["mv"], 5, 10⟩ 0
      ⟨"g", "h", 5⟩ ⟨.otherKind, "boom", none⟩ (stableFs (fun _ => 5)) (by decide),
   release_hook_behavior.1 ⟨[], [], 0, 10⟩ "x" rfl⟩

theorem check_file_exact_string_match_witness :
    check_file (.ok ()) (.ok ()) [171] "ab" = .ok true :=
  (check_file_exact_string_match.1 [171] "ab").1.mpr (by decide)

/-- C3 counterexample: with budget 10, a file submitted at declared size 5
(≤ the budget) and drained while path.metadata() reports 7 makes the
release-mode u64 `cur_size -= 7` wrap to 2^64 - 2, so cur_size exceeds
max_size at an observable instant even though every submitted file's
declared size was within the budget. -/
theorem drain_regrow_wraps_cur_size :
    (Reader.runOps (Reader.new 10 none)
      [Op.add "a" "ref" (fun _ => Except.ok 5) [],
       Op.drain ⟨0, TaskResult.ok true, fun _ => Except.ok 7⟩]).1.cur_size = 2 ^ 64 - 2
    ∧ ¬ ((Reader.runOps (Reader.new 10 none)
        [Op.add "a" "ref" (fun _ => Except.ok 5) [],
         Op.drain ⟨0, TaskResult.ok true, fun _ => Except.ok 7⟩]).1.cur_size ≤ 10) := by
  refine ⟨?_, ?_⟩ <;> decide

/-- C6 counterexample: the empty-set-over-budget state is reachable, and the
admission loop then spins without progress.  With budget 10, a file
submitted at size 5 and drained while path.metadata() reports 3 leaves
cur_size = 2 with an empty JoinSet; submitting a 10-byte file (≤ the
budget) then enters the loop with 2 + 10 > 10, and every next() call
returns Ok(None) without changing the state, so the loop consumes any
supply of completion events and Reader::add ends stuck. -/
theorem loop_spins_on_leaked_budget :
    (Reader.runOps (Reader.new 10 none)
      [Op.add "a" "ref" (fun _ => Except.ok 5) [],
       Op.drain ⟨0, TaskResult.ok true, fun _ => Except.ok 3⟩]).1.inflight = []
    ∧ wadd (Reader.runOps (Reader.new 10 none)
        [Op.add "a" "ref" (fun _ => Except.ok 5) [],
         Op.drain ⟨0, TaskResult.ok true, fun _ => Except.ok 3⟩]).1.cur_size 10
      > (Reader.runOps (Reader.new 10 none)
        [Op.add "a" "ref" (fun _ => Except.ok 5) [],
         Op.drain ⟨0, TaskResult.ok true, fun _ => Except.ok 3⟩]).1.max_size
    ∧ (Reader.add (Reader.runOps (Reader.new 10 none)
        [Op.add "a" "ref" (fun _ => Except.ok 5) [],
         Op.drain ⟨0, TaskResult.ok true, fun _ => Except.ok 3⟩]).1
        "e" "ref" (fun _ => Except.ok 10)
        [⟨0, TaskResult.ok true, fun _ => Except.ok 3⟩,
         ⟨1, TaskResult.ok true, fun _ => Except.ok 3⟩]).2.2 = AddResult.stuck := by
  refine ⟨?_, ?_, ?_⟩ <;> decide
